import Mathlib

/-!
Verification development for the `see` command bookmark manager.

The Python sources are shallowly embedded: the persisted command record
becomes a structure, the manager operations become pure functions from the
old command list to the new one together with the value returned to the
caller and a flag recording whether `storage.save` ran, and exceptions
become `Except` values.  Timestamps (`datetime.now()`) are passed in as an
explicit `now` parameter.  The embedding follows `src/src/manager.py` (the
packaged variant, which supersedes the flat `src/manager.py` by adding
alias support and `last_used_at`), `src/storage.py`, `src/tui.py` and
`src/variables.py`.
-/

namespace See

/-- One saved command record, after §"Data model" of manager.py: the dict
built in `CommandManager.add` with keys id, command, description, tags,
alias, created_at, used_count, plus the `last_used_at` key set by
`increment_usage`. -/
structure Cmd where
  id : Nat
  command : String
  description : String
  tags : List String
  aliasName : Option String
  created_at : Nat
  last_used_at : Option Nat
  used_count : Nat
deriving Repr, DecidableEq

/-! ## variables.py: placeholder handling

The regex `\x7b\x7b(\w+)\x7d\x7d` is embedded as a left-to-right scanner.
Because `\w` matches no brace, the greedy `\w+` never needs backtracking:
at a position starting with two opening braces a match exists iff the
maximal word-character run after them is nonempty and is followed by two
closing braces.  On failure the scan advances one character, exactly as
`re.findall` / `re.sub` advance the search position. -/

/-- Word characters of the regex class `\w` (letters, digits, underscore). -/
def isWordChar (c : Char) : Bool := c.isAlphanum || c = '_'

/-- A piece of a command string: a literal character, or one
placeholder occurrence carrying its name. -/
inductive Seg where
  | lit (c : Char)
  | ph (name : String)
deriving Repr, DecidableEq

/-- Split a character list into literal characters and placeholder
occurrences, mirroring the regex scan of `PLACEHOLDER_PATTERN`. -/
def tokenize : List Char → List Seg
  | [] => []
  | '{' :: '{' :: rest =>
    let word := rest.takeWhile isWordChar
    match _h : rest.dropWhile isWordChar with
    | '}' :: '}' :: tail =>
      if word.isEmpty then Seg.lit '{' :: tokenize ('{' :: rest)
      else Seg.ph (String.mk word) :: tokenize tail
    | _ => Seg.lit '{' :: tokenize ('{' :: rest)
  | c :: cs => Seg.lit c :: tokenize cs
termination_by l => l.length
decreasing_by
  · simp only [List.length_cons]
    omega
  · have hsub : List.Sublist (List.dropWhile isWordChar rest) rest :=
      List.dropWhile_sublist isWordChar
    have hlen : (List.dropWhile isWordChar rest).length ≤ rest.length := hsub.length_le
    rw [_h] at hlen
    simp only [List.length_cons] at hlen ⊢
    omega
  · simp only [List.length_cons]
    omega
  · simp only [List.length_cons]
    omega

/-- The placeholder names in order of occurrence, duplicates included:
the embedding of `PLACEHOLDER_PATTERN.findall(command)`. -/
def rawPlaceholders (cs : List Char) : List String :=
  (tokenize cs).filterMap fun s =>
    match s with
    | Seg.ph n => some n
    | Seg.lit _ => none

/-- Order-preserving removal of duplicates with an accumulator of names
already seen, embedding the seen-set loop of `find_placeholders`. -/
def dedupKeepFirst : List String → List String → List String
  | [], _ => []
  | x :: xs, seen =>
    if x ∈ seen then dedupKeepFirst xs seen else x :: dedupKeepFirst xs (x :: seen)

/-- Embedding of `find_placeholders`: distinct placeholder names in order
of first appearance. -/
def find_placeholders (command : String) : List String :=
  dedupKeepFirst (rawPlaceholders command.data) []

/-- Embedding of `values.get(name)` on the Python dict of supplied
values, modelled as an association list. -/
def lookupValue (values : List (String × String)) (name : String) : Option String :=
  match values.find? (fun p => p.1 = name) with
  | some p => some p.2
  | none => none

/-- Render one segment back to characters: a literal is kept, a
placeholder is replaced by its value when supplied and otherwise kept
verbatim, embedding the replacement callback of `substitute`. -/
def renderSeg (values : List (String × String)) : Seg → List Char
  | Seg.lit c => [c]
  | Seg.ph n =>
    match lookupValue values n with
    | some v => v.data
    | none => '{' :: '{' :: (n.data ++ ['}', '}'])

/-- Embedding of `substitute`: `PLACEHOLDER_PATTERN.sub(replace, command)`. -/
def substitute (command : String) (values : List (String × String)) : String :=
  String.mk (((tokenize command.data).map (renderSeg values)).flatten)

/-! ## Python string primitives

`str.strip`, `str.lower`, `str.startswith`, `sorted` and the substring
operator `in` are embedded as structurally recursive functions on the
character list of a string. -/

/-- Embedding of `str.strip()`: drop leading and trailing whitespace. -/
def pyStrip (s : String) : String :=
  String.mk (((s.data.dropWhile Char.isWhitespace).reverse.dropWhile Char.isWhitespace).reverse)

/-- Embedding of `str.lower()`. -/
def pyLower (s : String) : String :=
  String.mk (s.data.map Char.toLower)

/-- Embedding of `str.startswith('-')`. -/
def startsWithDash (s : String) : Bool :=
  match s.data with
  | [] => false
  | c :: _ => c = '-'

/-- Insert into a sorted list of strings, keeping it sorted. -/
def insertSorted (x : String) : List String → List String
  | [] => [x]
  | y :: ys => if x ≤ y then x :: y :: ys else y :: insertSorted x ys

/-- Embedding of `sorted` on a list of strings (ascending). -/
def pySorted (l : List String) : List String := l.foldr insertSorted []

/-- Does the first character list start the second? -/
def matchesAt : List Char → List Char → Bool
  | [], _ => true
  | _ :: _, [] => false
  | c :: cs, d :: ds => c = d && matchesAt cs ds

/-- Does the second list occur contiguously inside the first? -/
def containsSub (haystack needle : List Char) : Bool :=
  matchesAt needle haystack ||
    (match haystack with
     | [] => false
     | _ :: rest => containsSub rest needle)

/-- Embedding of the `in` substring test on Python strings. -/
def strContains (haystack needle : String) : Bool :=
  containsSub haystack.data needle.data

/-! ## manager.py: the command repository

Operations are functions from the in-memory command list to the new list,
the value handed back to the caller, and a `saved` flag recording whether
`storage.save(self.commands)` ran.  A raised `ValueError` from alias
validation becomes `Except.error`; because Python mutates the found dict
in place, an operation that mutates before raising returns the mutated
list alongside the error. -/

/-- The failure reasons of `CommandManager.validate_alias`, each carrying
the data the corresponding `ValueError` message reports. -/
inductive ValErr where
  | startsWithDash (a : String)
  | reservedKeyword (a : String)
  | inUse (a : String) (ownerId : Nat)
deriving Repr, DecidableEq

/-- The `RESERVED_KEYWORDS` set of `validate_alias`, as listed in the
source (the duplicate entry for the word alias is kept once, as in a
Python set literal). -/
def RESERVED_KEYWORDS : List String :=
  ["search", "list", "show", "run", "delete", "edit", "stats",
   "install", "import", "tags", "interactive", "i", "alias", "help",
   "see", "add",
   "cd", "exit", "logout", "pwd", "clear", "history", "type",
   "unalias", "export", "unset", "set", "env",
   "source", ".", "ls", "cp", "mv", "rm", "mkdir", "grep",
   "cat", "echo", "man", "sudo", "which", "whoami",
   "true", "false", "test"]

/-- Embedding of `CommandManager.get_by_alias`. -/
def get_by_alias (commands : List Cmd) (a : String) : Option Cmd :=
  if a = "" then none
  else commands.find? (fun c => c.aliasName = some a)

/-- Embedding of `CommandManager.validate_alias`. -/
def validate_alias (commands : List Cmd) (a : String) (current_cmd_id : Option Nat) :
    Except ValErr Unit :=
  if a = "" then Except.ok ()
  else if startsWithDash a then Except.error (ValErr.startsWithDash a)
  else if RESERVED_KEYWORDS.contains a then Except.error (ValErr.reservedKeyword a)
  else
    match get_by_alias commands a with
    | some existing =>
      match current_cmd_id with
      | none => Except.error (ValErr.inUse a existing.id)
      | some i =>
        if existing.id ≠ i then Except.error (ValErr.inUse a existing.id) else Except.ok ()
    | none => Except.ok ()

/-- Embedding of `CommandManager._find_by_command`. -/
def find_by_command (commands : List Cmd) (command_str : String) : Option Cmd :=
  commands.find? (fun c => pyStrip c.command = command_str)

/-- Embedding of `CommandManager._get_next_id`. -/
def get_next_id (commands : List Cmd) : Nat :=
  if commands.isEmpty then 1
  else ((commands.map Cmd.id).foldl max 0) + 1

/-- Embedding of `CommandManager.get`. -/
def get (commands : List Cmd) (cmd_id : Nat) : Option Cmd :=
  commands.find? (fun c => c.id = cmd_id)

/-- Replace the first element satisfying the predicate, modelling the
in-place mutation of the dict returned by a linear search. -/
def updateFirstP : List Cmd → (Cmd → Bool) → Cmd → List Cmd
  | [], _, _ => []
  | c :: cs, p, v => if p c then v :: cs else c :: updateFirstP cs p v

/-- Python truthiness of an optional string: `None` and the empty string
are falsy. -/
def truthyStr : Option String → Option String
  | some a => if a = "" then none else some a
  | none => none

/-- Embedding of `sorted(list(existing_tags.union(new_tags)))` on the two
tag lists viewed as sets. -/
def sortedTagUnion (existingTags newTags : List String) : List String :=
  pySorted ((existingTags ++ newTags).dedup)

deriving instance DecidableEq for Except

/-- The value `CommandManager.add` returns: the merge branch returns the
existing entity plus the two flags, the fresh branch the new entity. -/
inductive AddOutcome where
  | merged (cmd : Cmd) (updated merged_tags : Bool)
  | created (cmd : Cmd)
deriving Repr, DecidableEq

/-- Result of one `add` call: in-memory list afterwards, whether
`storage.save` ran, and the returned value or raised error. -/
structure AddResult where
  commands : List Cmd
  saved : Bool
  result : Except ValErr AddOutcome
deriving Repr, DecidableEq

/-- Embedding of `CommandManager.add` (src/src/manager.py).  The merge
branch assigns a supplied truthy alias without calling `validate_alias`,
merges tags as a sorted set union, never touches the description, and
saves iff anything changed; the fresh branch validates a truthy alias
before appending and saving. -/
def add (commands : List Cmd) (command description : String) (tags : List String)
    (aliasArg : Option String) (now : Nat) : AddResult :=
  let command := pyStrip command
  match find_by_command commands command with
  | some existing =>
    let step1 : Cmd × Bool :=
      match truthyStr aliasArg with
      | some a =>
        if existing.aliasName = some a then (existing, false)
        else ({ existing with aliasName := some a }, true)
      | none => (existing, false)
    let subset := tags.all (fun t => existing.tags.contains t)
    let cmd2 : Cmd :=
      if subset then step1.1 else { step1.1 with tags := sortedTagUnion existing.tags tags }
    let updated := if subset then step1.2 else true
    let merged_tags := !subset
    { commands := updateFirstP commands (fun c => pyStrip c.command = command) cmd2,
      saved := updated,
      result := Except.ok (AddOutcome.merged cmd2 updated merged_tags) }
  | none =>
    let new_command : Cmd :=
      { id := get_next_id commands,
        command := command,
        description := description,
        tags := tags,
        aliasName := aliasArg,
        created_at := now,
        last_used_at := none,
        used_count := 0 }
    match truthyStr aliasArg with
    | some a =>
      match validate_alias commands a (some new_command.id) with
      | Except.error e => { commands := commands, saved := false, result := Except.error e }
      | Except.ok _ =>
        { commands := commands ++ [new_command], saved := true,
          result := Except.ok (AddOutcome.created new_command) }
    | none =>
      { commands := commands ++ [new_command], saved := true,
        result := Except.ok (AddOutcome.created new_command) }

/-- Result of one `edit` call; `result` is `ok none` for an unknown id,
mirroring the `return None`. -/
structure EditResult where
  commands : List Cmd
  saved : Bool
  result : Except ValErr (Option Cmd)
deriving Repr, DecidableEq

/-- The description and tag assignments at the top of
`CommandManager.edit`: a truthy description replaces the stored one, a
supplied tag list (even an empty one) replaces the stored tags; the
second component is the `updated` flag so far. -/
def editApplyDescTags (cmd0 : Cmd) (description : Option String)
    (tags : Option (List String)) : Cmd × Bool :=
  let step1 : Cmd × Bool :=
    match description with
    | some d => if d = "" then (cmd0, false) else ({ cmd0 with description := d }, true)
    | none => (cmd0, false)
  match tags with
  | some ts => ({ step1.1 with tags := ts }, true)
  | none => step1

/-- Embedding of `CommandManager.edit` (src/src/manager.py).  A supplied
alias that differs from the current one is validated with the command's
own id excluded and then assigned.  Description and tags are written to
the found dict before the alias is validated, so a failing validation
leaves those in-memory changes behind while skipping the save. -/
def edit (commands : List Cmd) (cmd_id : Nat) (description : Option String)
    (tags : Option (List String)) (aliasArg : Option String) : EditResult :=
  match get commands cmd_id with
  | none => { commands := commands, saved := false, result := Except.ok none }
  | some cmd0 =>
    let step2 : Cmd × Bool := editApplyDescTags cmd0 description tags
    match aliasArg with
    | none =>
      { commands := updateFirstP commands (fun c => c.id = cmd_id) step2.1,
        saved := step2.2, result := Except.ok (some step2.1) }
    | some a =>
      if cmd0.aliasName = some a then
        { commands := updateFirstP commands (fun c => c.id = cmd_id) step2.1,
          saved := step2.2, result := Except.ok (some step2.1) }
      else
        let commandsMid := updateFirstP commands (fun c => c.id = cmd_id) step2.1
        match validate_alias commandsMid a (some cmd_id) with
        | Except.error e =>
          { commands := commandsMid, saved := false, result := Except.error e }
        | Except.ok _ =>
          let cmd3 := { step2.1 with aliasName := some a }
          { commands := updateFirstP commands (fun c => c.id = cmd_id) cmd3,
            saved := true, result := Except.ok (some cmd3) }

/-- Embedding of `CommandManager.delete_multiple`: remaining list, saved
flag, and the returned count. -/
def delete_multiple (commands : List Cmd) (cmd_ids : List Nat) : List Cmd × Bool × Nat :=
  let remaining := commands.filter (fun c => !(cmd_ids.contains c.id))
  let deleted_count := commands.length - remaining.length
  (remaining, decide (0 < deleted_count), deleted_count)

/-- Embedding of `CommandManager.search`: a falsy filter (absent, empty
tag list, empty query) is skipped. -/
def search (commands : List Cmd) (query : Option String) (tags : Option (List String)) :
    List Cmd :=
  let r1 :=
    match tags with
    | some ts =>
      if ts.isEmpty then commands
      else commands.filter (fun cmd =>
        ts.any (fun tag => (cmd.tags.map pyLower).contains (pyLower tag)))
    | none => commands
  match query with
  | some q =>
    if q = "" then r1
    else r1.filter (fun cmd =>
      strContains (pyLower cmd.command) (pyLower q) || strContains (pyLower cmd.description) (pyLower q))
  | none => r1

/-- Embedding of `CommandManager.increment_usage` (src/src/manager.py):
new list and whether `storage.save` ran. -/
def increment_usage (commands : List Cmd) (cmd_id : Nat) (now : Nat) : List Cmd × Bool :=
  match get commands cmd_id with
  | none => (commands, false)
  | some cmd0 =>
    (updateFirstP commands (fun c => c.id = cmd_id)
      { cmd0 with used_count := cmd0.used_count + 1, last_used_at := some now }, true)

/-! ## storage.py: the persistence layer

The backing JSON file is modelled by the three states the code
distinguishes: missing (`open` raises `FileNotFoundError`, which `load`
does not catch), present but unparseable (`json.load` raises
`json.JSONDecodeError`, which `load` catches), and present with a valid
collection.  `Except.error ()` stands for an exception escaping `load`. -/

/-- Observable state of the commands file. -/
inductive FileState where
  | absent
  | corrupt
  | valid (commands : List Cmd)
deriving Repr, DecidableEq

/-- Embedding of `CommandStorage._ensure_file_exists`, run by the
constructor: a missing file is created holding the empty collection. -/
def ensure_file_exists : FileState → FileState
  | FileState.absent => FileState.valid []
  | fs => fs

/-- What one `CommandStorage.load` call produces: the returned collection
or an escaped exception, whether the corruption warning was printed, and
the file state afterwards. -/
structure LoadOutcome where
  result : Except Unit (List Cmd)
  warned : Bool
  fileAfter : FileState
deriving Repr, DecidableEq

/-- Embedding of `CommandStorage.load`: only `json.JSONDecodeError` is
caught (yielding a warning and the empty collection, file untouched); a
missing file makes `open` raise past the method. -/
def load : FileState → LoadOutcome
  | FileState.absent => ⟨Except.error (), false, FileState.absent⟩
  | FileState.corrupt => ⟨Except.ok [], true, FileState.corrupt⟩
  | FileState.valid cmds => ⟨Except.ok cmds, false, FileState.valid cmds⟩

/-- Embedding of `CommandStorage.save`: the whole collection overwrites
the file. -/
def save (_fs : FileState) (cmds : List Cmd) : FileState := FileState.valid cmds

/-! ## tui.py: the interactive selector

The navigation core of `_run_tui` is the pair (current_idx, offset)
together with the per-frame offset adjustment performed before drawing
and the key handlers at the bottom of the loop.  Python's
`max(0, i - k)` on ints is truncated subtraction on `Nat`. -/

/-- Cursor and scroll state of the selector loop. -/
structure SelState where
  current_idx : Nat
  offset : Nat
deriving Repr, DecidableEq

/-- Embedding of `list_height = max(3, height - 3 - preview_height)` with
`preview_height = 4`. -/
def list_height (height : Nat) : Nat := max 3 (height - 3 - 4)

/-- The scroll adjustment at the top of each frame: scroll up to the
cursor when it is above the window, down to make it the last visible row
when it is below, otherwise leave the offset alone. -/
def adjustOffset (h : Nat) (s : SelState) : SelState :=
  if s.current_idx < s.offset then { s with offset := s.current_idx }
  else if s.offset + h ≤ s.current_idx then { s with offset := s.current_idx - h + 1 }
  else s

/-- The navigation keys of the selector (up/`k`, down/`j`, page-up,
page-down, home, end). -/
inductive NavKey where
  | up
  | down
  | pageUp
  | pageDown
  | home
  | toEnd
deriving Repr, DecidableEq

/-- The key handlers of `_run_tui` for a list of `len` commands and a
visible window of `h` rows. -/
def applyKey (len h : Nat) (s : SelState) : NavKey → SelState
  | NavKey.up => { s with current_idx := s.current_idx - 1 }
  | NavKey.down => { s with current_idx := min (len - 1) (s.current_idx + 1) }
  | NavKey.pageUp => { s with current_idx := s.current_idx - h }
  | NavKey.pageDown => { s with current_idx := min (len - 1) (s.current_idx + h) }
  | NavKey.home => { s with current_idx := 0 }
  | NavKey.toEnd => { s with current_idx := len - 1 }

/-- One loop iteration: the frame first adjusts the offset and draws,
then a key moves the cursor. -/
def selStep (len h : Nat) (s : SelState) (k : NavKey) : SelState :=
  applyKey len h (adjustOffset h s) k

/-- The selector state reached from the initial state
`current_idx = 0, offset = 0` by a sequence of navigation keys. -/
def selRun (len h : Nat) (keys : List NavKey) : SelState :=
  keys.foldl (selStep len h) ⟨0, 0⟩

/-! ## Shared lemmas -/

theorem find_updateFirstP_split {p : Cmd → Bool} {l : List Cmd} {x : Cmd}
    (h : l.find? p = some x) :
    ∃ pre post, l = pre ++ x :: post ∧ (∀ c ∈ pre, p c = false) ∧ p x = true ∧
      ∀ v, updateFirstP l p v = pre ++ v :: post := by
  induction l with
  | nil => simp at h
  | cons c cs ih =>
    by_cases hp : p c
    · have hx : c = x := by
        rw [List.find?_cons_of_pos _ hp] at h
        exact Option.some.inj h
      subst hx
      exact ⟨[], cs, rfl, by simp, hp, fun v => by simp [updateFirstP, hp]⟩
    · rw [List.find?_cons_of_neg _ hp] at h
      obtain ⟨pre, post, rfl, hpre, hpx, hupd⟩ := ih h
      refine ⟨c :: pre, post, rfl, ?_, hpx, fun v => ?_⟩
      · intro c' hc'
        rcases List.mem_cons.mp hc' with hc' | hc'
        · subst hc'
          exact Bool.eq_false_iff.mpr hp
        · exact hpre c' hc'
      · simp [updateFirstP, hp, hupd v]

theorem le_foldl_max (l : List Nat) (a : Nat) :
    a ≤ l.foldl max a ∧ ∀ x ∈ l, x ≤ l.foldl max a := by
  induction l generalizing a with
  | nil => simp
  | cons y ys ih =>
    obtain ⟨h1, h2⟩ := ih (max a y)
    refine ⟨le_trans (le_max_left a y) h1, fun x hx => ?_⟩
    rcases List.mem_cons.mp hx with rfl | hx
    · exact le_trans (le_max_right a x) h1
    · exact h2 x hx

theorem id_lt_get_next_id {commands : List Cmd} {c : Cmd} (hc : c ∈ commands) :
    c.id < get_next_id commands := by
  have hne : ¬ commands.isEmpty := by
    cases commands with
    | nil => cases hc
    | cons _ _ => simp
  have hmem : c.id ∈ commands.map Cmd.id := List.mem_map_of_mem Cmd.id hc
  have := (le_foldl_max (commands.map Cmd.id) 0).2 c.id hmem
  unfold get_next_id
  rw [if_neg hne]
  omega

theorem map_id_updateFirstP {p : Cmd → Bool} {l : List Cmd} {x v : Cmd}
    (h : l.find? p = some x) (hid : v.id = x.id) :
    (updateFirstP l p v).map Cmd.id = l.map Cmd.id := by
  obtain ⟨pre, post, rfl, -, -, hupd⟩ := find_updateFirstP_split h
  rw [hupd]
  simp [hid]

/-- One collection-mutating operation, for stating invariants over
arbitrary operation sequences. -/
inductive Op where
  | addOp (command description : String) (tags : List String)
      (aliasArg : Option String) (now : Nat)
  | deleteOp (ids : List Nat)

/-- Apply one operation to the in-memory collection. -/
def applyOp (commands : List Cmd) : Op → List Cmd
  | Op.addOp c d ts al now => (add commands c d ts al now).commands
  | Op.deleteOp ids => (delete_multiple commands ids).1

/-- The collection reached from the empty one by a sequence of add and
delete operations. -/
def runOps (ops : List Op) : List Cmd := ops.foldl applyOp []

theorem add_map_id_or_append (commands : List Cmd) (c d : String) (ts : List String)
    (al : Option String) (now : Nat) :
    (add commands c d ts al now).commands.map Cmd.id = commands.map Cmd.id ∨
    ∃ nc : Cmd, nc.id = get_next_id commands ∧
      (add commands c d ts al now).commands = commands ++ [nc] := by
  rcases hf : find_by_command commands (pyStrip c) with _ | ex
  · rcases htr : truthyStr al with _ | a
    · refine Or.inr ⟨⟨get_next_id commands, pyStrip c, d, ts, al, now, none, 0⟩, rfl, ?_⟩
      simp only [add, hf, htr]
    · rcases hv : validate_alias commands a (some (get_next_id commands)) with e | u
      · refine Or.inl ?_
        simp only [add, hf, htr, hv]
      · refine Or.inr ⟨⟨get_next_id commands, pyStrip c, d, ts, al, now, none, 0⟩, rfl, ?_⟩
        simp only [add, hf, htr, hv]
  · have hf' : commands.find? (fun c' => decide (pyStrip c'.command = pyStrip c)) = some ex := hf
    refine Or.inl ?_
    simp only [add, hf]
    apply map_id_updateFirstP hf'
    rcases htr : truthyStr al with _ | a <;>
      simp only [htr] <;>
      split <;>
      first
        | rfl
        | (split <;> rfl)

/-! ## Claim theorems -/

/-- C3 amended: after every sequence of add and delete operations the ids
in the collection are unique — in fact strictly increasing in stored
(creation) order — and a fresh add receives `get_next_id`, which is
strictly greater than every currently existing id; an id may however be
reassigned after the entity holding the maximum id is deleted. -/
theorem claim_C3 (ops : List Op) :
    ((runOps ops).map Cmd.id).Pairwise (· < ·) ∧
    ((runOps ops).map Cmd.id).Nodup ∧
    ∀ c ∈ runOps ops, c.id < get_next_id (runOps ops) := by
  have key : ∀ (l : List Cmd), (l.map Cmd.id).Pairwise (· < ·) →
      ∀ op : Op, ((applyOp l op).map Cmd.id).Pairwise (· < ·) := by
    intro l hl op
    cases op with
    | addOp cs ds ts al now =>
      rcases add_map_id_or_append l cs ds ts al now with heq | ⟨nc, hid, heq⟩
      · show ((add l cs ds ts al now).commands.map Cmd.id).Pairwise (· < ·)
        rw [heq]
        exact hl
      · show ((add l cs ds ts al now).commands.map Cmd.id).Pairwise (· < ·)
        rw [heq, List.map_append]
        refine List.pairwise_append.mpr ⟨hl, by simp, ?_⟩
        intro x hx y hy
        obtain ⟨cx, hcx, rfl⟩ := List.mem_map.mp hx
        have hy' : y = nc.id := by simpa using hy
        rw [hy', hid]
        exact id_lt_get_next_id hcx
    | deleteOp ids =>
      have hsub : List.Sublist ((delete_multiple l ids).1) l :=
        List.filter_sublist l
      exact List.Pairwise.sublist (hsub.map Cmd.id) hl
  have main : ∀ (ops' : List Op) (l : List Cmd), (l.map Cmd.id).Pairwise (· < ·) →
      ((ops'.foldl applyOp l).map Cmd.id).Pairwise (· < ·) := by
    intro ops'
    induction ops' with
    | nil => exact fun l hl => hl
    | cons op ops'' ih => exact fun l hl => ih _ (key l hl op)
  have hpw : ((runOps ops).map Cmd.id).Pairwise (· < ·) := main ops [] (by simp)
  exact ⟨hpw, hpw.imp (fun h => Nat.ne_of_lt h), fun c hc => id_lt_get_next_id hc⟩

/-- C3 counterexample: ids ARE reused after deletion.  Adding a first
command yields id 1; deleting it empties the collection, and the next
add computes `get_next_id` on the empty collection, handing out id 1 a
second time — the claim says an id is never reused after its entity is
deleted. -/
theorem claim_C3_cex :
    (add [] "a" "" [] none 0).commands.map Cmd.id = [1] ∧
    (delete_multiple (add [] "a" "" [] none 0).commands [1]).1 = [] ∧
    (add (delete_multiple (add [] "a" "" [] none 0).commands [1]).1
      "b" "" [] none 0).commands.map Cmd.id = [1] :=
  ⟨rfl, rfl, rfl⟩

/-- C7: `increment_usage` is a no-op when no command has the given id
(no save happens and the list is returned unchanged); when the id is
present, exactly that command's `used_count` is incremented by 1 and its
`last_used_at` set to now, every other command and every other field is
untouched, and the collection is persisted. -/
theorem claim_C7 (commands : List Cmd) (cmd_id now : Nat) :
    (get commands cmd_id = none →
      increment_usage commands cmd_id now = (commands, false)) ∧
    (∀ cmd0 : Cmd, get commands cmd_id = some cmd0 →
      ∃ pre post, commands = pre ++ cmd0 :: post ∧ (∀ c ∈ pre, c.id ≠ cmd_id) ∧
        increment_usage commands cmd_id now =
          (pre ++ { cmd0 with used_count := cmd0.used_count + 1, last_used_at := some now } :: post, true)) := by
  constructor
  · intro h
    simp only [increment_usage, h]
  · intro cmd0 h
    have h' : commands.find? (fun c => decide (c.id = cmd_id)) = some cmd0 := h
    obtain ⟨pre, post, hsplit, hpre, -, hupd⟩ := find_updateFirstP_split h'
    refine ⟨pre, post, hsplit, ?_, ?_⟩
    · intro c hc
      have := hpre c hc
      simpa using this
    · simp only [increment_usage, h, hupd]

/-- C7 witness: both branches evaluated on a one-command collection. -/
theorem claim_C7_witness :
    increment_usage [⟨1, "ls", "d", [], none, 0, none, 3⟩] 2 9 =
      ([⟨1, "ls", "d", [], none, 0, none, 3⟩], false) ∧
    ∃ pre post, [(⟨1, "ls", "d", [], none, 0, none, 3⟩ : Cmd)] =
        pre ++ (⟨1, "ls", "d", [], none, 0, none, 3⟩ : Cmd) :: post ∧
      (∀ c ∈ pre, c.id ≠ 1) ∧
      increment_usage [⟨1, "ls", "d", [], none, 0, none, 3⟩] 1 9 =
        (pre ++ { (⟨1, "ls", "d", [], none, 0, none, 3⟩ : Cmd) with used_count := 3 + 1, last_used_at := some 9 } :: post, true) :=
  ⟨(claim_C7 [⟨1, "ls", "d", [], none, 0, none, 3⟩] 2 9).1 rfl,
   (claim_C7 [⟨1, "ls", "d", [], none, 0, none, 3⟩] 1 9).2
     ⟨1, "ls", "d", [], none, 0, none, 3⟩ rfl⟩

/-- C1: when the trimmed command string already belongs to an existing
entity, `add` creates no new entity (same length, same ids, every other
entity untouched), the existing entity keeps its description — and its
id, command text, creation time and usage data — even when the supplied
description differs, and the returned flags are `merged_tags` = the
supplied tags are not a subset of the existing ones, `updated` = an alias
change or a tag merge happened. -/
theorem claim_C1 (commands : List Cmd) (command description : String) (tags : List String)
    (al : Option String) (now : Nat) (ex : Cmd)
    (hf : find_by_command commands (pyStrip command) = some ex) :
    (add commands command description tags al now).commands.length = commands.length ∧
    (add commands command description tags al now).commands.map Cmd.id =
      commands.map Cmd.id ∧
    ∃ pre post cm,
      commands = pre ++ ex :: post ∧
      (add commands command description tags al now).commands = pre ++ cm :: post ∧
      (add commands command description tags al now).result =
        Except.ok (AddOutcome.merged cm
          ((match truthyStr al with
            | some a => !(decide (ex.aliasName = some a))
            | none => false) || !(tags.all fun t => ex.tags.contains t))
          (!(tags.all fun t => ex.tags.contains t))) ∧
      cm.id = ex.id ∧ cm.command = ex.command ∧ cm.description = ex.description ∧
      cm.created_at = ex.created_at ∧ cm.last_used_at = ex.last_used_at ∧
      cm.used_count = ex.used_count := by
  have hf' : commands.find? (fun c' => decide (pyStrip c'.command = pyStrip command))
      = some ex := hf
  obtain ⟨pre, post, hsplit, hpre, hpx, hupd⟩ := find_updateFirstP_split hf'
  suffices key : ∃ cm : Cmd,
      (add commands command description tags al now).commands = pre ++ cm :: post ∧
      (add commands command description tags al now).result =
        Except.ok (AddOutcome.merged cm
          ((match truthyStr al with
            | some a => !(decide (ex.aliasName = some a))
            | none => false) || !(tags.all fun t => ex.tags.contains t))
          (!(tags.all fun t => ex.tags.contains t))) ∧
      cm.id = ex.id ∧ cm.command = ex.command ∧ cm.description = ex.description ∧
      cm.created_at = ex.created_at ∧ cm.last_used_at = ex.last_used_at ∧
      cm.used_count = ex.used_count by
    obtain ⟨cm, h1, h2, hid, hrest⟩ := key
    refine ⟨?_, ?_, pre, post, cm, hsplit, h1, h2, hid, hrest⟩
    · rw [h1, hsplit]
      simp
    · rw [h1, hsplit]
      simp [hid]
  simp only [add, hf]
  rcases htr : truthyStr al with _ | a
  · cases hsub : (tags.all fun t => ex.tags.contains t)
    · exact ⟨{ ex with tags := sortedTagUnion ex.tags tags },
        by simp [hupd], by simp, rfl, rfl, rfl, rfl, rfl, rfl⟩
    · exact ⟨ex, by simp [hupd], by simp, rfl, rfl, rfl, rfl, rfl, rfl⟩
  · by_cases hal : ex.aliasName = some a
    · cases hsub : (tags.all fun t => ex.tags.contains t)
      · exact ⟨{ ex with tags := sortedTagUnion ex.tags tags },
          by simp [hal, hupd], by simp [hal], rfl, rfl, rfl, rfl, rfl, rfl⟩
      · exact ⟨ex, by simp [hal, hupd], by simp [hal], rfl, rfl, rfl, rfl, rfl, rfl⟩
    · cases hsub : (tags.all fun t => ex.tags.contains t)
      · exact ⟨{ ex with aliasName := some a, tags := sortedTagUnion ex.tags tags },
          by simp [hal, hupd], by simp [hal], rfl, rfl, rfl, rfl, rfl, rfl⟩
      · exact ⟨{ ex with aliasName := some a },
          by simp [hal, hupd], by simp [hal], rfl, rfl, rfl, rfl, rfl, rfl⟩

/-- C1 witness: re-adding an existing command with a different
description and an extra tag, checked on a one-entity collection. -/
theorem claim_C1_witness :
    (add [⟨1, "ls -l", "d", ["a"], none, 0, none, 0⟩] "ls -l " "other" ["b"] none 7).commands.length = 1 ∧
    (add [⟨1, "ls -l", "d", ["a"], none, 0, none, 0⟩] "ls -l " "other" ["b"] none 7).commands.map Cmd.id = [1] := by
  have h := claim_C1 [⟨1, "ls -l", "d", ["a"], none, 0, none, 0⟩] "ls -l " "other" ["b"]
    none 7 ⟨1, "ls -l", "d", ["a"], none, 0, none, 0⟩ (by decide)
  exact ⟨h.1, h.2.1⟩

/-- C2 refuted (code bug): the merge branch of `add` persists a supplied
alias without ever calling `validate_alias`.  Re-adding an existing
command with the reserved alias `cd` stores and saves it, although
`validate_alias` rejects exactly that alias; re-adding with an alias
already owned by a different id likewise stores a duplicate alias. -/
theorem claim_C2_bug :
    "cd" ∈ RESERVED_KEYWORDS ∧
    (add [⟨1, "ls -la", "d", [], none, 0, none, 0⟩] "ls -la" "x" [] (some "cd") 5).saved
      = true ∧
    (add [⟨1, "ls -la", "d", [], none, 0, none, 0⟩] "ls -la" "x" [] (some "cd") 5).commands
      = [⟨1, "ls -la", "d", [], some "cd", 0, none, 0⟩] ∧
    validate_alias [⟨1, "ls -la", "d", [], none, 0, none, 0⟩] "cd" (some 1)
      = Except.error (ValErr.reservedKeyword "cd") ∧
    (add [⟨1, "a", "", [], some "z", 0, none, 0⟩, ⟨2, "b", "", [], none, 0, none, 0⟩]
        "b" "" [] (some "z") 5).commands
      = [⟨1, "a", "", [], some "z", 0, none, 0⟩, ⟨2, "b", "", [], some "z", 0, none, 0⟩] ∧
    validate_alias [⟨1, "a", "", [], some "z", 0, none, 0⟩, ⟨2, "b", "", [], none, 0, none, 0⟩]
        "z" (some 2)
      = Except.error (ValErr.inUse "z" 1) := by
  refine ⟨?_, ?_, ?_, ?_, ?_, ?_⟩ <;> decide

theorem editApplyDescTags_keeps (cmd0 : Cmd) (d : Option String)
    (ts : Option (List String)) :
    (editApplyDescTags cmd0 d ts).1.id = cmd0.id ∧
    (editApplyDescTags cmd0 d ts).1.aliasName = cmd0.aliasName ∧
    (editApplyDescTags cmd0 d ts).1.command = cmd0.command ∧
    (editApplyDescTags cmd0 d ts).1.created_at = cmd0.created_at ∧
    (editApplyDescTags cmd0 d ts).1.last_used_at = cmd0.last_used_at ∧
    (editApplyDescTags cmd0 d ts).1.used_count = cmd0.used_count := by
  unfold editApplyDescTags
  rcases d with _ | dv <;> rcases ts with _ | tv <;>
    dsimp only <;>
    first
      | exact ⟨rfl, rfl, rfl, rfl, rfl, rfl⟩
      | (split <;> exact ⟨rfl, rfl, rfl, rfl, rfl, rfl⟩)

theorem validate_alias_error_sound {commands : List Cmd} {a : String} {i : Option Nat}
    {e : ValErr} :
    validate_alias commands a i = Except.error e →
    (match e with
     | ValErr.startsWithDash s => s = a ∧ startsWithDash a = true
     | ValErr.reservedKeyword s => s = a ∧ a ∈ RESERVED_KEYWORDS
     | ValErr.inUse s owner =>
         s = a ∧ i ≠ some owner ∧ ∃ c ∈ commands, c.id = owner ∧ c.aliasName = some a) := by
  intro h
  unfold validate_alias at h
  by_cases h1 : a = ""
  · rw [if_pos h1] at h
    exact absurd h (by simp)
  · rw [if_neg h1] at h
    by_cases h2 : startsWithDash a = true
    · rw [if_pos h2] at h
      injection h with h'
      subst h'
      exact ⟨rfl, h2⟩
    · rw [if_neg h2] at h
      by_cases h3 : RESERVED_KEYWORDS.contains a = true
      · rw [if_pos h3] at h
        injection h with h'
        subst h'
        refine ⟨rfl, ?_⟩
        simpa using h3
      · rw [if_neg h3] at h
        rcases hg : get_by_alias commands a with _ | c
        · rw [hg] at h
          exact absurd h (by simp)
        · rw [hg] at h
          have hg' : commands.find? (fun c' => decide (c'.aliasName = some a)) = some c := by
            unfold get_by_alias at hg
            rw [if_neg h1] at hg
            exact hg
          have hmem : c ∈ commands := List.mem_of_find?_eq_some hg'
          have hca : c.aliasName = some a := by
            have := List.find?_some hg'
            simpa using this
          rcases i with _ | j
          · dsimp only at h
            injection h with h'
            subst h'
            exact ⟨rfl, by simp, c, hmem, rfl, hca⟩
          · dsimp only at h
            by_cases h4 : c.id ≠ j
            · rw [if_pos h4] at h
              injection h with h'
              subst h'
              refine ⟨rfl, ?_, c, hmem, rfl, hca⟩
              intro hh
              injection hh with hh'
              exact h4 hh'.symm
            · rw [if_neg h4] at h
              exact absurd h (by simp)

theorem edit_error_state (commands : List Cmd) (cmd_id : Nat) (d : Option String)
    (ts : Option (List String)) (al : Option String) (e : ValErr) :
    (edit commands cmd_id d ts al).result = Except.error e →
    (edit commands cmd_id d ts al).saved = false ∧
    ((edit commands cmd_id d ts al).commands.map fun c => (c.id, c.aliasName)) =
      (commands.map fun c => (c.id, c.aliasName)) ∧
    (∀ c ∈ (edit commands cmd_id d ts al).commands, c.id ≠ cmd_id → c ∈ commands) ∧
    (match e with
     | ValErr.startsWithDash s => startsWithDash s = true
     | ValErr.reservedKeyword s => s ∈ RESERVED_KEYWORDS
     | ValErr.inUse s owner =>
         owner ≠ cmd_id ∧ ∃ c ∈ commands, c.id = owner ∧ c.aliasName = some s) := by
  intro herr
  rcases hg : get commands cmd_id with _ | cmd0
  · simp [edit, hg] at herr
  · have hg' : commands.find? (fun c' => decide (c'.id = cmd_id)) = some cmd0 := hg
    obtain ⟨pre, post, hsplit, hpre, hpx, hupd⟩ := find_updateFirstP_split hg'
    have hcmd0id : cmd0.id = cmd_id := by simpa using hpx
    obtain ⟨hk1, hk2, -⟩ := editApplyDescTags_keeps cmd0 d ts
    rcases al with _ | a
    · simp [edit, hg] at herr
    · by_cases hal : cmd0.aliasName = some a
      · simp [edit, hg, hal] at herr
      · rcases hv : validate_alias
            (updateFirstP commands (fun c' => decide (c'.id = cmd_id))
              (editApplyDescTags cmd0 d ts).1) a (some cmd_id) with ev | u
        · have hred : edit commands cmd_id d ts (some a) =
              { commands := updateFirstP commands (fun c' => decide (c'.id = cmd_id))
                  (editApplyDescTags cmd0 d ts).1,
                saved := false, result := Except.error ev } := by
            simp only [edit, hg]
            rw [if_neg hal, hv]
          rw [hred] at herr
          have h' : Except.error ev = Except.error e := herr
          injection h' with h''
          subst h''
          refine ⟨by rw [hred], ?_, ?_, ?_⟩
          · rw [hred]
            show (List.map _ (updateFirstP commands _ _)) = _
            rw [hupd, hsplit]
            simp [hk1, hk2]
          · rw [hred]
            intro c hc hcid
            show c ∈ commands
            rw [hupd] at hc
            rw [hsplit]
            rcases List.mem_append.mp hc with hc | hc
            · exact List.mem_append.mpr (Or.inl hc)
            · rcases List.mem_cons.mp hc with rfl | hc
              · exact absurd (hk1.trans hcmd0id) hcid
              · exact List.mem_append.mpr (Or.inr (List.mem_cons.mpr (Or.inr hc)))
          · have hs := validate_alias_error_sound hv
            cases ev with
            | startsWithDash s =>
              obtain ⟨rfl, hx⟩ := hs
              exact hx
            | reservedKeyword s =>
              obtain ⟨rfl, hx⟩ := hs
              exact hx
            | inUse s owner =>
              obtain ⟨rfl, hine, c, hcmem, hcid, hca⟩ := hs
              refine ⟨?_, ?_⟩
              · intro hh
                exact hine (by rw [hh])
              · rw [hupd] at hcmem
                rcases List.mem_append.mp hcmem with hc | hc
                · exact ⟨c, by rw [hsplit]; exact List.mem_append.mpr (Or.inl hc), hcid, hca⟩
                · rcases List.mem_cons.mp hc with rfl | hc
                  · refine ⟨cmd0, by rw [hsplit]; simp, ?_, ?_⟩
                    · rw [← hk1]
                      exact hcid
                    · rw [← hk2]
                      exact hca
                  · exact ⟨c, by
                      rw [hsplit]
                      exact List.mem_append.mpr (Or.inr (List.mem_cons.mpr (Or.inr hc))),
                      hcid, hca⟩
        · simp [edit, hg, hal, hv] at herr

theorem add_error_state (commands : List Cmd) (command description : String)
    (tg : List String) (a2 : Option String) (now : Nat) (e2 : ValErr) :
    (add commands command description tg a2 now).result = Except.error e2 →
    (add commands command description tg a2 now).commands = commands ∧
    (add commands command description tg a2 now).saved = false ∧
    (match e2 with
     | ValErr.startsWithDash s => startsWithDash s = true
     | ValErr.reservedKeyword s => s ∈ RESERVED_KEYWORDS
     | ValErr.inUse s owner => ∃ c ∈ commands, c.id = owner ∧ c.aliasName = some s) := by
  intro herr
  rcases hf : find_by_command commands (pyStrip command) with _ | ex
  · rcases htr : truthyStr a2 with _ | a
    · simp [add, hf, htr] at herr
    · rcases hv : validate_alias commands a (some (get_next_id commands)) with ev | u
      · have hred : add commands command description tg a2 now =
            { commands := commands, saved := false, result := Except.error ev } := by
          simp only [add, hf, htr, hv]
        rw [hred] at herr
        have h' : Except.error ev = Except.error e2 := herr
        injection h' with h''
        subst h''
        refine ⟨by rw [hred], by rw [hred], ?_⟩
        have hs := validate_alias_error_sound hv
        cases ev with
        | startsWithDash s =>
          obtain ⟨rfl, hx⟩ := hs
          exact hx
        | reservedKeyword s =>
          obtain ⟨rfl, hx⟩ := hs
          exact hx
        | inUse s owner =>
          obtain ⟨rfl, hine, c, hcmem, hcid, hca⟩ := hs
          exact ⟨c, hcmem, hcid, hca⟩
      · simp [add, hf, htr, hv] at herr
  · simp [add, hf] at herr

/-- C4 amended: when alias validation fails, the enclosing add or edit
reports the violated rule (with the owning id for collisions) and skips
the save; no alias field of any entity changes, on add the collection is
fully unchanged, and on edit every entity other than the edited one is
unchanged — but an edit that also supplies a description or tags has
already applied those to the edited entity in memory when the error is
raised. -/
theorem claim_C4 (commands : List Cmd) (cmd_id : Nat) (d : Option String)
    (ts : Option (List String)) (al : Option String)
    (command description : String) (tg : List String) (a2 : Option String) (now : Nat)
    (e e2 : ValErr) :
    ((edit commands cmd_id d ts al).result = Except.error e →
      (edit commands cmd_id d ts al).saved = false ∧
      ((edit commands cmd_id d ts al).commands.map fun c => (c.id, c.aliasName)) =
        (commands.map fun c => (c.id, c.aliasName)) ∧
      (∀ c ∈ (edit commands cmd_id d ts al).commands, c.id ≠ cmd_id → c ∈ commands) ∧
      (match e with
       | ValErr.startsWithDash s => startsWithDash s = true
       | ValErr.reservedKeyword s => s ∈ RESERVED_KEYWORDS
       | ValErr.inUse s owner =>
           owner ≠ cmd_id ∧ ∃ c ∈ commands, c.id = owner ∧ c.aliasName = some s)) ∧
    ((add commands command description tg a2 now).result = Except.error e2 →
      (add commands command description tg a2 now).commands = commands ∧
      (add commands command description tg a2 now).saved = false ∧
      (match e2 with
       | ValErr.startsWithDash s => startsWithDash s = true
       | ValErr.reservedKeyword s => s ∈ RESERVED_KEYWORDS
       | ValErr.inUse s owner => ∃ c ∈ commands, c.id = owner ∧ c.aliasName = some s)) :=
  ⟨edit_error_state commands cmd_id d ts al e,
   add_error_state commands command description tg a2 now e2⟩

/-- C4 counterexample: an edit that supplies both a new description and a
colliding alias raises the collision error, yet the edited entity's
description has already been changed in memory when the error escapes —
the claim says the failure happens before any mutation and leaves the
edited entity unchanged. -/
theorem claim_C4_cex :
    (edit [⟨1, "one", "d1", [], some "x", 0, none, 0⟩, ⟨2, "two", "old", [], none, 0, none, 0⟩]
        2 (some "new") none (some "x")).result = Except.error (ValErr.inUse "x" 1) ∧
    (edit [⟨1, "one", "d1", [], some "x", 0, none, 0⟩, ⟨2, "two", "old", [], none, 0, none, 0⟩]
        2 (some "new") none (some "x")).commands =
      [⟨1, "one", "d1", [], some "x", 0, none, 0⟩, ⟨2, "two", "new", [], none, 0, none, 0⟩] := by
  refine ⟨?_, ?_⟩ <;> decide

/-- C4 witness: the amended theorem applied to a concrete failing edit. -/
theorem claim_C4_witness :
    (edit [⟨1, "go", "d1", [], some "y", 0, none, 0⟩, ⟨2, "stop", "old", [], none, 0, none, 0⟩]
        2 none none (some "y")).saved = false ∧
    ((edit [⟨1, "go", "d1", [], some "y", 0, none, 0⟩, ⟨2, "stop", "old", [], none, 0, none, 0⟩]
        2 none none (some "y")).commands.map fun c => (c.id, c.aliasName)) =
      (([⟨1, "go", "d1", [], some "y", 0, none, 0⟩,
        ⟨2, "stop", "old", [], none, 0, none, 0⟩] : List Cmd).map fun c => (c.id, c.aliasName)) := by
  have h := (claim_C4 [⟨1, "go", "d1", [], some "y", 0, none, 0⟩,
      ⟨2, "stop", "old", [], none, 0, none, 0⟩] 2 none none (some "y")
      "" "" [] none 0 (ValErr.inUse "y" 1) (ValErr.inUse "y" 1)).1 (by decide)
  exact ⟨h.1, h.2.1⟩

theorem matchesAt_iff (n h : List Char) :
    matchesAt n h = true ↔ ∃ post, n ++ post = h := by
  induction n generalizing h with
  | nil => simp [matchesAt]
  | cons c cs ih =>
    cases h with
    | nil => simp [matchesAt]
    | cons d ds =>
      simp only [matchesAt, Bool.and_eq_true, decide_eq_true_eq, ih]
      constructor
      · rintro ⟨rfl, post, rfl⟩
        exact ⟨post, rfl⟩
      · rintro ⟨post, hp⟩
        injection hp with h1 h2
        exact ⟨h1, post, h2⟩

theorem containsSub_iff (h n : List Char) :
    containsSub h n = true ↔ ∃ pre post, pre ++ n ++ post = h := by
  induction h with
  | nil =>
    rw [show containsSub [] n = (matchesAt n [] || false) from rfl]
    simp only [Bool.or_false, matchesAt_iff]
    constructor
    · rintro ⟨post, hp⟩
      exact ⟨[], post, by simpa using hp⟩
    · rintro ⟨pre, post, hp⟩
      rcases List.append_eq_nil.mp hp with ⟨hp1, hp2⟩
      rcases List.append_eq_nil.mp hp1 with ⟨rfl, rfl⟩
      exact ⟨[], by simp⟩
  | cons c rest ih =>
    rw [show containsSub (c :: rest) n = (matchesAt n (c :: rest) || containsSub rest n)
      from rfl]
    simp only [Bool.or_eq_true, matchesAt_iff, ih]
    constructor
    · rintro (⟨post, hp⟩ | ⟨pre, post, rfl⟩)
      · exact ⟨[], post, by simpa using hp⟩
      · exact ⟨c :: pre, post, rfl⟩
    · rintro ⟨pre, post, hp⟩
      cases pre with
      | nil => exact Or.inl ⟨post, by simpa using hp⟩
      | cons x xs =>
        injection hp with h1 h2
        exact Or.inr ⟨xs, post, h2⟩

theorem filter_then_filter {α : Type} (p q : α → Bool) (l : List α) :
    (l.filter p).filter q = l.filter (fun a => p a && q a) := by
  induction l with
  | nil => rfl
  | cons x xs ih =>
    by_cases hp : p x <;> by_cases hq : q x <;> simp [hp, hq, ih]

/-- C5: `search` returns, in stored order, exactly the commands passing
both filters — with a (truthy) tag list, a row is kept iff some requested
tag case-insensitively equals some tag of the row; with a (truthy)
query, a row is kept iff the lowered query occurs as a substring of the
lowered command text or description; both filters AND together; a falsy
filter (absent, empty list, empty string) keeps everything. -/
theorem claim_C5 (commands : List Cmd) (q : String) (ts : List String)
    (hq : q ≠ "") (hts : ts ≠ []) :
    search commands (some q) (some ts) =
      commands.filter (fun cmd =>
        (ts.any fun tag => (cmd.tags.map pyLower).contains (pyLower tag)) &&
        (strContains (pyLower cmd.command) (pyLower q) ||
          strContains (pyLower cmd.description) (pyLower q))) ∧
    (∀ cmd, cmd ∈ search commands (some q) (some ts) ↔
      cmd ∈ commands ∧
      (∃ tag ∈ ts, ∃ ct ∈ cmd.tags, pyLower ct = pyLower tag) ∧
      ((∃ pre post : List Char, pre ++ (pyLower q).data ++ post = (pyLower cmd.command).data) ∨
       (∃ pre post : List Char,
          pre ++ (pyLower q).data ++ post = (pyLower cmd.description).data))) ∧
    List.Sublist (search commands (some q) (some ts)) commands ∧
    search commands none (some ts) =
      commands.filter (fun cmd =>
        ts.any fun tag => (cmd.tags.map pyLower).contains (pyLower tag)) ∧
    search commands (some q) none =
      commands.filter (fun cmd =>
        strContains (pyLower cmd.command) (pyLower q) ||
          strContains (pyLower cmd.description) (pyLower q)) ∧
    search commands none none = commands ∧
    search commands (some "") (some []) = commands := by
  have hts' : ¬(ts.isEmpty = true) := by
    cases ts with
    | nil => exact absurd rfl hts
    | cons a as => simp
  have hfilter : search commands (some q) (some ts) =
      (commands.filter (fun cmd =>
        ts.any fun tag => (cmd.tags.map pyLower).contains (pyLower tag))).filter
        (fun cmd =>
          strContains (pyLower cmd.command) (pyLower q) ||
            strContains (pyLower cmd.description) (pyLower q)) := by
    simp only [search]
    rw [if_neg hts', if_neg hq]
  have hone := filter_then_filter
    (fun cmd => ts.any fun tag => (cmd.tags.map pyLower).contains (pyLower tag))
    (fun cmd =>
      strContains (pyLower cmd.command) (pyLower q) ||
        strContains (pyLower cmd.description) (pyLower q)) commands
  refine ⟨hfilter.trans hone, ?_, ?_, ?_, ?_, rfl, rfl⟩
  · intro cmd
    rw [hfilter.trans hone]
    simp only [List.mem_filter, Bool.and_eq_true, Bool.or_eq_true, List.any_eq_true,
      strContains, containsSub_iff, List.contains, List.elem_eq_mem, decide_eq_true_eq,
      List.mem_map]
  · rw [hfilter.trans hone]
    exact List.filter_sublist commands
  · simp only [search]
    rw [if_neg hts']
  · simp only [search]
    rw [if_neg hq]

/-- C5 witness: tag search is case-insensitive on a concrete collection
(`Docker` found by `docker`) and both filters evaluated together. -/
theorem claim_C5_witness :
    search [⟨1, "docker ps", "list containers", ["Docker"], none, 0, none, 0⟩]
        (some "PS") (some ["docker"]) =
      [⟨1, "docker ps", "list containers", ["Docker"], none, 0, none, 0⟩].filter (fun cmd =>
        ((["docker"] : List String).any fun tag =>
          (cmd.tags.map pyLower).contains (pyLower tag)) &&
        (strContains (pyLower cmd.command) (pyLower "PS") ||
          strContains (pyLower cmd.description) (pyLower "PS"))) ∧
    search [⟨1, "docker ps", "list containers", ["Docker"], none, 0, none, 0⟩]
        none none =
      [⟨1, "docker ps", "list containers", ["Docker"], none, 0, none, 0⟩] := by
  have h := claim_C5 [⟨1, "docker ps", "list containers", ["Docker"], none, 0, none, 0⟩]
    "PS" ["docker"] (by decide) (by decide)
  exact ⟨h.1, h.2.2.2.2.2.1⟩

theorem tokenize_nil : tokenize [] = [] := by
  simp [tokenize]

theorem tokenize_ph (rest tail : List Char)
    (hdrop : rest.dropWhile isWordChar = '}' :: '}' :: tail)
    (hword : (rest.takeWhile isWordChar).isEmpty = false) :
    tokenize ('{' :: '{' :: rest) =
      Seg.ph (String.mk (rest.takeWhile isWordChar)) :: tokenize tail := by
  rw [tokenize.eq_def]
  split
  · rename_i heq
    exact absurd heq (by simp)
  · rename_i rest' heq
    injection heq with h1 h2
    injection h2 with h3 h4
    subst h4
    split
    · rename_i tail' heq2
      rw [hdrop] at heq2
      injection heq2 with g1 g2
      injection g2 with g3 g4
      subst g4
      simp [hword]
    · rename_i hfail
      exact (hfail tail hdrop).elim
  · rename_i c cs hfail heq
    injection heq with h1 h2
    exact (hfail rest h1.symm h2.symm).elim

theorem tokenize_open_lit (rest : List Char)
    (h : ((rest.takeWhile isWordChar).isEmpty = true) ∨
      (∀ tail : List Char, rest.dropWhile isWordChar ≠ '}' :: '}' :: tail)) :
    tokenize ('{' :: '{' :: rest) = Seg.lit '{' :: tokenize ('{' :: rest) := by
  rw [tokenize.eq_def]
  split
  · rename_i heq
    exact absurd heq (by simp)
  · rename_i rest' heq
    injection heq with h1 h2
    injection h2 with h3 h4
    subst h4
    split
    · rename_i tail' heq2
      rcases h with hw | hf
      · simp [hw]
      · exact (hf tail' heq2).elim
    · rfl
  · rename_i c cs hfail heq
    injection heq with h1 h2
    exact (hfail rest h1.symm h2.symm).elim

theorem tokenize_cons_lit (c : Char) (cs : List Char)
    (h : ∀ rest : List Char, c = '{' → cs = '{' :: rest → False) :
    tokenize (c :: cs) = Seg.lit c :: tokenize cs := by
  rw [tokenize.eq_def]
  split
  · rename_i heq
    exact absurd heq (by simp)
  · rename_i rest' heq
    injection heq with h1 h2
    exact (h rest' h1 h2).elim
  · rename_i c' cs' hfail heq
    injection heq with h1 h2
    subst h1
    subst h2
    rfl

theorem tokenize_render (values : List (String × String)) : ∀ cs : List Char,
    (∀ n ∈ rawPlaceholders cs, lookupValue values n = none) →
    ((tokenize cs).map (renderSeg values)).flatten = cs := by
  intro cs
  induction cs using tokenize.induct with
  | case1 =>
    intro _
    rw [tokenize_nil]
    rfl
  | case2 rest word tail hdrop hword ih =>
    intro hnone
    have heq := tokenize_open_lit rest (Or.inl hword)
    have hraw : rawPlaceholders ('{' :: '{' :: rest) = rawPlaceholders ('{' :: rest) := by
      unfold rawPlaceholders
      rw [heq]
      simp [List.filterMap_cons]
    rw [heq]
    simp only [List.map_cons, List.flatten_cons]
    rw [ih (fun n hn => hnone n (by rw [hraw]; exact hn))]
    rfl
  | case3 rest word tail hdrop hword ih =>
    intro hnone
    have hword' : (rest.takeWhile isWordChar).isEmpty = false := by
      cases h : (rest.takeWhile isWordChar).isEmpty
      · rfl
      · exact absurd h hword
    have heq := tokenize_ph rest tail hdrop hword'
    have hraw : rawPlaceholders ('{' :: '{' :: rest) =
        String.mk (rest.takeWhile isWordChar) :: rawPlaceholders tail := by
      unfold rawPlaceholders
      rw [heq]
      simp [List.filterMap_cons]
    have hlook : lookupValue values (String.mk (rest.takeWhile isWordChar)) = none :=
      hnone _ (by rw [hraw]; exact List.mem_cons_self _ _)
    rw [heq]
    simp only [List.map_cons, List.flatten_cons, renderSeg, hlook]
    rw [ih (fun n hn => hnone n (by rw [hraw]; exact List.mem_cons_of_mem _ hn))]
    show '{' :: '{' :: ((rest.takeWhile isWordChar ++ ['}', '}']) ++ tail) = '{' :: '{' :: rest
    rw [List.append_assoc]
    show '{' :: '{' :: (rest.takeWhile isWordChar ++ ('}' :: '}' :: tail)) = '{' :: '{' :: rest
    rw [← hdrop, List.takeWhile_append_dropWhile]
  | case4 rest hfail ih =>
    intro hnone
    have heq := tokenize_open_lit rest (Or.inr (fun tail h => hfail tail h))
    have hraw : rawPlaceholders ('{' :: '{' :: rest) = rawPlaceholders ('{' :: rest) := by
      unfold rawPlaceholders
      rw [heq]
      simp [List.filterMap_cons]
    rw [heq]
    simp only [List.map_cons, List.flatten_cons]
    rw [ih (fun n hn => hnone n (by rw [hraw]; exact hn))]
    rfl
  | case5 c cs hnc ih =>
    intro hnone
    have heq := tokenize_cons_lit c cs hnc
    have hraw : rawPlaceholders (c :: cs) = rawPlaceholders cs := by
      unfold rawPlaceholders
      rw [heq]
      simp [List.filterMap_cons]
    rw [heq]
    simp only [List.map_cons, List.flatten_cons]
    rw [ih (fun n hn => hnone n (by rw [hraw]; exact hn))]
    rfl

theorem mem_dedupKeepFirst (l : List String) (seen : List String) (n : String) :
    n ∈ dedupKeepFirst l seen ↔ n ∈ l ∧ n ∉ seen := by
  induction l generalizing seen with
  | nil => simp [dedupKeepFirst]
  | cons x xs ih =>
    unfold dedupKeepFirst
    by_cases hx : x ∈ seen
    · rw [if_pos hx, ih]
      constructor
      · rintro ⟨h1, h2⟩
        exact ⟨List.mem_cons.mpr (Or.inr h1), h2⟩
      · rintro ⟨h1, h2⟩
        rcases List.mem_cons.mp h1 with rfl | h1
        · exact absurd hx h2
        · exact ⟨h1, h2⟩
    · rw [if_neg hx]
      simp only [List.mem_cons, ih, List.mem_cons]
      constructor
      · rintro (rfl | ⟨h1, h2⟩)
        · exact ⟨Or.inl rfl, hx⟩
        · exact ⟨Or.inr h1, fun hs => h2 (Or.inr hs)⟩
      · rintro ⟨rfl | h1, h2⟩
        · exact Or.inl rfl
        · by_cases hnx : n = x
          · exact Or.inl hnx
          · exact Or.inr ⟨h1, fun hs => h2 (by rcases hs with h | h; exact absurd h hnx; exact h)⟩

theorem nodup_dedupKeepFirst (l : List String) (seen : List String) :
    (dedupKeepFirst l seen).Nodup := by
  induction l generalizing seen with
  | nil => simp [dedupKeepFirst]
  | cons x xs ih =>
    unfold dedupKeepFirst
    by_cases hx : x ∈ seen
    · rw [if_pos hx]
      exact ih seen
    · rw [if_neg hx]
      refine List.nodup_cons.mpr ⟨?_, ih (x :: seen)⟩
      intro hmem
      exact ((mem_dedupKeepFirst xs (x :: seen) x).mp hmem).2 (List.mem_cons_self x seen)

theorem pairwise_indexOf_dedupKeepFirst (l : List String) (seen : List String) :
    (dedupKeepFirst l seen).Pairwise (fun a b => l.indexOf a < l.indexOf b) := by
  induction l generalizing seen with
  | nil => simp [dedupKeepFirst]
  | cons x xs ih =>
    unfold dedupKeepFirst
    by_cases hx : x ∈ seen
    · rw [if_pos hx]
      refine (ih seen).imp_of_mem ?_
      intro a b ha hb hlt
      have hax : a ≠ x := fun h =>
        ((mem_dedupKeepFirst xs seen a).mp ha).2 (h ▸ hx)
      have hbx : b ≠ x := fun h =>
        ((mem_dedupKeepFirst xs seen b).mp hb).2 (h ▸ hx)
      rw [List.indexOf_cons_ne xs (Ne.symm hax), List.indexOf_cons_ne xs (Ne.symm hbx)]
      omega
    · rw [if_neg hx]
      refine List.Pairwise.cons ?_ ?_
      · intro b hb
        have hbx : b ≠ x := fun h =>
          ((mem_dedupKeepFirst xs (x :: seen) b).mp hb).2 (h ▸ List.mem_cons_self x seen)
        rw [List.indexOf_cons_self, List.indexOf_cons_ne xs (Ne.symm hbx)]
        omega
      · refine (ih (x :: seen)).imp_of_mem ?_
        intro a b ha hb hlt
        have hax : a ≠ x := fun h =>
          ((mem_dedupKeepFirst xs (x :: seen) a).mp ha).2 (h ▸ List.mem_cons_self x seen)
        have hbx : b ≠ x := fun h =>
          ((mem_dedupKeepFirst xs (x :: seen) b).mp hb).2 (h ▸ List.mem_cons_self x seen)
        rw [List.indexOf_cons_ne xs (Ne.symm hax), List.indexOf_cons_ne xs (Ne.symm hbx)]
        omega

theorem takedrop_word (nd : List Char) (h : ∀ c ∈ nd, isWordChar c = true) :
    (nd ++ ['}', '}']).takeWhile isWordChar = nd ∧
    (nd ++ ['}', '}']).dropWhile isWordChar = ['}', '}'] := by
  induction nd with
  | nil => exact ⟨by decide, by decide⟩
  | cons c cs ih =>
    have hc : isWordChar c = true := h c (List.mem_cons_self c cs)
    have ih' := ih (fun x hx => h x (List.mem_cons_of_mem c hx))
    constructor
    · rw [List.cons_append, List.takeWhile_cons]
      simp [hc, ih'.1]
    · rw [List.cons_append, List.dropWhile_cons]
      simp [hc, ih'.2]

/-- C10: `find_placeholders` returns the distinct placeholder names with
no duplicates (Nodup), containing exactly the names the regex scan finds,
ordered by first occurrence in the scan (strictly increasing first
indexes); and substitution keyed by name replaces exactly the
placeholders whose names have supplied values while changing nothing
else: the string decomposes into segments whose verbatim concatenation
is the original string, whose placeholder names are exactly the scanned
names in order, and whose substitution image replaces each placeholder
carrying a supplied value by that value, keeps every unmatched
placeholder verbatim, and copies every literal character; in particular
`substitute` of a single placeholder with a supplied value is that
value, and a string none of whose placeholders has a value is returned
unchanged. -/
theorem claim_C10 (s : String) (values : List (String × String)) :
    (find_placeholders s).Nodup ∧
    (∀ n, n ∈ find_placeholders s ↔ n ∈ rawPlaceholders s.data) ∧
    (find_placeholders s).Pairwise
      (fun a b => (rawPlaceholders s.data).indexOf a < (rawPlaceholders s.data).indexOf b) ∧
    (∃ segs : List Seg,
      s.data = (segs.map (fun sg =>
        match sg with
        | Seg.lit c => [c]
        | Seg.ph n => '{' :: '{' :: (n.data ++ ['}', '}']))).flatten ∧
      segs.filterMap (fun sg =>
        match sg with
        | Seg.ph n => some n
        | Seg.lit _ => none) = rawPlaceholders s.data ∧
      (substitute s values).data = (segs.map (fun sg =>
        match sg with
        | Seg.lit c => [c]
        | Seg.ph n =>
          match lookupValue values n with
          | some v => v.data
          | none => '{' :: '{' :: (n.data ++ ['}', '}']))).flatten) ∧
    (∀ n v : String, n ≠ "" → (∀ c ∈ n.data, isWordChar c = true) →
      substitute (String.mk ('{' :: '{' :: (n.data ++ ['}', '}']))) [(n, v)] = v) ∧
    ((∀ n ∈ find_placeholders s, lookupValue values n = none) → substitute s values = s) ∧
    substitute s [] = s := by
  have hmem : ∀ n, n ∈ find_placeholders s ↔ n ∈ rawPlaceholders s.data := by
    intro n
    unfold find_placeholders
    rw [mem_dedupKeepFirst]
    simp
  refine ⟨nodup_dedupKeepFirst _ _, hmem, pairwise_indexOf_dedupKeepFirst _ _,
    ?_, ?_, ?_, ?_⟩
  · refine ⟨tokenize s.data, ?_, rfl, ?_⟩
    · have hm : (tokenize s.data).map (fun sg =>
          match sg with
          | Seg.lit c => [c]
          | Seg.ph n => '{' :: '{' :: (n.data ++ ['}', '}'])) =
          (tokenize s.data).map (renderSeg []) := by
        refine List.map_congr_left ?_
        intro sg _
        cases sg with
        | lit c => rfl
        | ph n => rfl
      rw [hm, tokenize_render [] s.data (fun _ _ => rfl)]
    · have hm2 : (tokenize s.data).map (fun sg =>
          match sg with
          | Seg.lit c => [c]
          | Seg.ph n =>
            match lookupValue values n with
            | some v => v.data
            | none => '{' :: '{' :: (n.data ++ ['}', '}'])) =
          (tokenize s.data).map (renderSeg values) := by
        refine List.map_congr_left ?_
        intro sg _
        cases sg with
        | lit c => rfl
        | ph n => rfl
      rw [hm2]
      rfl
  · intro n v hn hw
    have hnd : n.data.isEmpty = false := by
      cases hd : n.data with
      | nil =>
        exfalso
        apply hn
        cases n with
        | mk d =>
          simp only at hd
          rw [hd]
      | cons c cs => rfl
    have htd := takedrop_word n.data hw
    have htok : tokenize ('{' :: '{' :: (n.data ++ ['}', '}'])) = [Seg.ph n] := by
      rw [tokenize_ph (n.data ++ ['}', '}']) [] htd.2 (by rw [htd.1]; exact hnd)]
      rw [tokenize_nil, htd.1]
    have hlook : lookupValue [(n, v)] n = some v := by
      have hfind : ([(n, v)].find? (fun p => decide (p.1 = n))) = some (n, v) :=
        List.find?_cons_of_pos _ (by simp)
      unfold lookupValue
      rw [hfind]
    unfold substitute
    rw [show (String.mk ('{' :: '{' :: (n.data ++ ['}', '}']))).data =
      '{' :: '{' :: (n.data ++ ['}', '}']) from rfl]
    rw [htok]
    simp only [List.map_cons, List.map_nil, List.flatten_cons, List.flatten_nil,
      List.append_nil, renderSeg, hlook]
  · intro h
    unfold substitute
    rw [tokenize_render values s.data (fun n hn => h n ((hmem n).mpr hn))]
  · unfold substitute
    rw [tokenize_render [] s.data (fun _ _ => rfl)]

/-- C10 witness: an actual replacement — substituting the single
placeholder string for the name `name` yields the supplied value — and
substitution with an empty value set reproducing a concrete command with
placeholders verbatim. -/
theorem claim_C10_witness :
    substitute "\x7b\x7bname\x7d\x7d" [("name", "42")] = "42" ∧
    substitute "echo \x7b\x7bname\x7d\x7d > \x7b\x7bout\x7d\x7d" [] =
      "echo \x7b\x7bname\x7d\x7d > \x7b\x7bout\x7d\x7d" := by
  constructor
  · have h := (claim_C10 "" []).2.2.2.2.1 "name" "42" (by decide) (by decide)
    rw [show ("\x7b\x7bname\x7d\x7d" : String) =
      String.mk ('{' :: '{' :: (("name" : String).data ++ ['}', '}'])) by decide]
    exact h
  · exact (claim_C10 "echo \x7b\x7bname\x7d\x7d > \x7b\x7bout\x7d\x7d" []).2.2.2.2.2.1
      (fun _ _ => rfl)

theorem mem_insertSorted (x t : String) (l : List String) :
    t ∈ insertSorted x l ↔ t = x ∨ t ∈ l := by
  induction l with
  | nil => simp [insertSorted]
  | cons y ys ih =>
    unfold insertSorted
    split
    · simp [List.mem_cons]
    · simp only [List.mem_cons, ih]
      tauto

theorem mem_pySorted (t : String) (l : List String) : t ∈ pySorted l ↔ t ∈ l := by
  induction l with
  | nil => simp [pySorted]
  | cons x xs ih =>
    rw [show pySorted (x :: xs) = insertSorted x (pySorted xs) from rfl,
      mem_insertSorted, ih]
    simp [List.mem_cons]

theorem mem_sortedTagUnion (t : String) (a b : List String) :
    t ∈ sortedTagUnion a b ↔ t ∈ a ∨ t ∈ b := by
  unfold sortedTagUnion
  rw [mem_pySorted, List.mem_dedup, List.mem_append]

/-- C6: for an existing id, `edit` with a tag list replaces the tags
wholesale and `edit` with a (truthy) description replaces the description
wholesale, never merging, while re-adding the same command text unions
the supplied tags into the existing ones: from tags `[a, b]`,
`edit(tags=[c])` yields `[c]`, whereas re-adding with tags `[c]` yields
an entity whose tag set is `a, b, c`. -/
theorem claim_C6 (commands : List Cmd) (cmd_id : Nat) (cmd0 : Cmd) (ts : List String)
    (d s dsc : String) (tags2 : List String) (now : Nat) (ex : Cmd) :
    (get commands cmd_id = some cmd0 →
      ∃ pre post, commands = pre ++ cmd0 :: post ∧
        edit commands cmd_id none (some ts) none =
          { commands := pre ++ { cmd0 with tags := ts } :: post, saved := true,
            result := Except.ok (some { cmd0 with tags := ts }) }) ∧
    (get commands cmd_id = some cmd0 → d ≠ "" →
      ∃ pre post, commands = pre ++ cmd0 :: post ∧
        edit commands cmd_id (some d) none none =
          { commands := pre ++ { cmd0 with description := d } :: post, saved := true,
            result := Except.ok (some { cmd0 with description := d }) }) ∧
    (find_by_command commands (pyStrip s) = some ex →
      ∃ cm u m, (add commands s dsc tags2 none now).result =
          Except.ok (AddOutcome.merged cm u m) ∧
        (∀ t, t ∈ cm.tags ↔ t ∈ ex.tags ∨ t ∈ tags2)) := by
  refine ⟨?_, ?_, ?_⟩
  · intro hg
    have hg' : commands.find? (fun c' => decide (c'.id = cmd_id)) = some cmd0 := hg
    obtain ⟨pre, post, hsplit, -, -, hupd⟩ := find_updateFirstP_split hg'
    refine ⟨pre, post, hsplit, ?_⟩
    simp only [edit, hg]
    rw [show editApplyDescTags cmd0 none (some ts) = ({ cmd0 with tags := ts }, true)
      from rfl]
    rw [hupd]
  · intro hg hd
    have hg' : commands.find? (fun c' => decide (c'.id = cmd_id)) = some cmd0 := hg
    obtain ⟨pre, post, hsplit, -, -, hupd⟩ := find_updateFirstP_split hg'
    refine ⟨pre, post, hsplit, ?_⟩
    have hstep : editApplyDescTags cmd0 (some d) none =
        ({ cmd0 with description := d }, true) := by
      unfold editApplyDescTags
      dsimp only
      rw [if_neg hd]
    simp only [edit, hg]
    rw [hstep, hupd]
  · intro hf
    simp only [add, hf]
    cases hsub : (tags2.all fun t => ex.tags.contains t)
    · refine ⟨{ ex with tags := sortedTagUnion ex.tags tags2 }, true, true,
        by simp [truthyStr], ?_⟩
      intro t
      show t ∈ sortedTagUnion ex.tags tags2 ↔ t ∈ ex.tags ∨ t ∈ tags2
      exact mem_sortedTagUnion t ex.tags tags2
    · refine ⟨ex, false, false, by simp [truthyStr], ?_⟩
      intro t
      constructor
      · exact fun h => Or.inl h
      · rintro (h | h)
        · exact h
        · have hall := List.all_eq_true.mp hsub t h
          simpa using hall

/-- C6 witness: the concrete `[a, b]` example — `edit(tags=[c])` leaves
exactly `[c]`, re-adding the same command with tags `[c]` yields a tag
set containing `a`, `b` and `c`. -/
theorem claim_C6_witness :
    (∃ pre post, [(⟨1, "deploy", "d", ["a", "b"], none, 0, none, 0⟩ : Cmd)] =
        pre ++ (⟨1, "deploy", "d", ["a", "b"], none, 0, none, 0⟩ : Cmd) :: post ∧
      edit [⟨1, "deploy", "d", ["a", "b"], none, 0, none, 0⟩] 1 none (some ["c"]) none =
        { commands := pre ++ { (⟨1, "deploy", "d", ["a", "b"], none, 0, none, 0⟩ : Cmd) with tags := ["c"] } :: post, saved := true,
          result := Except.ok (some { (⟨1, "deploy", "d", ["a", "b"], none, 0, none, 0⟩ : Cmd) with tags := ["c"] }) }) ∧
    (∃ cm u m, (add [⟨1, "deploy", "d", ["a", "b"], none, 0, none, 0⟩] "deploy" "" ["c"] none 0).result =
        Except.ok (AddOutcome.merged cm u m) ∧
      (∀ t, t ∈ cm.tags ↔ t ∈ (["a", "b"] : List String) ∨ t ∈ (["c"] : List String))) := by
  have h := claim_C6 [⟨1, "deploy", "d", ["a", "b"], none, 0, none, 0⟩] 1
    ⟨1, "deploy", "d", ["a", "b"], none, 0, none, 0⟩ ["c"] "x" "deploy" "" ["c"] 0
    ⟨1, "deploy", "d", ["a", "b"], none, 0, none, 0⟩
  exact ⟨h.1 rfl, h.2.2 (by decide)⟩

/-- C8: in the Selector, for any non-empty command list and any sequence
of navigation inputs, after each redraw the cursor lies inside the
visible window (`offset ≤ current_idx < offset + list_height`), the
cursor never leaves `[0, len-1]`, the redraw never moves the cursor
itself, and the offset adjustment is by the minimal amount that restores
the window invariant. -/
theorem claim_C8 (len height : Nat) (keys : List NavKey) (hlen : 1 ≤ len) :
    (selRun len (list_height height) keys).current_idx < len ∧
    (adjustOffset (list_height height) (selRun len (list_height height) keys)).current_idx =
      (selRun len (list_height height) keys).current_idx ∧
    (adjustOffset (list_height height) (selRun len (list_height height) keys)).offset ≤
      (selRun len (list_height height) keys).current_idx ∧
    (selRun len (list_height height) keys).current_idx <
      (adjustOffset (list_height height) (selRun len (list_height height) keys)).offset +
        list_height height ∧
    (∀ s : SelState, ∀ o' : Nat, o' ≤ s.current_idx →
      s.current_idx < o' + list_height height →
      Nat.dist s.offset (adjustOffset (list_height height) s).offset ≤
        Nat.dist s.offset o') := by
  have hh : 1 ≤ list_height height := le_trans (by omega) (Nat.le_max_left 3 (height - 3 - 4))
  have hai : ∀ s : SelState,
      (adjustOffset (list_height height) s).current_idx = s.current_idx := by
    intro s
    unfold adjustOffset
    split
    · rfl
    · split <;> rfl
  have hidx : ∀ s : SelState, ∀ ks : List NavKey, s.current_idx < len →
      (ks.foldl (selStep len (list_height height)) s).current_idx < len := by
    intro s ks
    induction ks generalizing s with
    | nil => exact fun h => h
    | cons k ks ih =>
      intro hs
      refine ih _ ?_
      have ha := hai s
      cases k with
      | up =>
        show (adjustOffset (list_height height) s).current_idx - 1 < len
        omega
      | down =>
        show min (len - 1) ((adjustOffset (list_height height) s).current_idx + 1) < len
        omega
      | pageUp =>
        show (adjustOffset (list_height height) s).current_idx - list_height height < len
        omega
      | pageDown =>
        show min (len - 1) ((adjustOffset (list_height height) s).current_idx +
          list_height height) < len
        omega
      | home =>
        show 0 < len
        omega
      | toEnd =>
        show len - 1 < len
        omega
  have hrun : (selRun len (list_height height) keys).current_idx < len := by
    refine hidx ⟨0, 0⟩ keys ?_
    show 0 < len
    omega
  have hadj : ∀ s : SelState, (adjustOffset (list_height height) s).offset ≤ s.current_idx ∧
      s.current_idx < (adjustOffset (list_height height) s).offset + list_height height := by
    intro s
    unfold adjustOffset
    split
    · refine ⟨?_, ?_⟩
      · show s.current_idx ≤ s.current_idx
        omega
      · show s.current_idx < s.current_idx + list_height height
        omega
    · split
      · refine ⟨?_, ?_⟩
        · show s.current_idx - list_height height + 1 ≤ s.current_idx
          omega
        · show s.current_idx < s.current_idx - list_height height + 1 + list_height height
          omega
      · refine ⟨?_, ?_⟩ <;> omega
  refine ⟨hrun, hai _, (hadj _).1, (hadj _).2, ?_⟩
  intro s o' h1 h2
  unfold adjustOffset
  split
  · show Nat.dist s.offset s.current_idx ≤ Nat.dist s.offset o'
    simp only [Nat.dist]
    omega
  · split
    · show Nat.dist s.offset (s.current_idx - list_height height + 1) ≤ Nat.dist s.offset o'
      simp only [Nat.dist]
      omega
    · show Nat.dist s.offset s.offset ≤ Nat.dist s.offset o'
      simp only [Nat.dist]
      omega

/-- C8 witness: the invariant evaluated on a five-row list in a
ten-line terminal after a concrete key sequence. -/
theorem claim_C8_witness :
    (selRun 5 (list_height 10)
      [NavKey.down, NavKey.pageDown, NavKey.up, NavKey.toEnd, NavKey.home, NavKey.down]).current_idx < 5 ∧
    (adjustOffset (list_height 10) (selRun 5 (list_height 10)
      [NavKey.down, NavKey.pageDown, NavKey.up, NavKey.toEnd, NavKey.home, NavKey.down])).offset ≤
      (selRun 5 (list_height 10)
        [NavKey.down, NavKey.pageDown, NavKey.up, NavKey.toEnd, NavKey.home, NavKey.down]).current_idx := by
  have h := claim_C8 5 10
    [NavKey.down, NavKey.pageDown, NavKey.up, NavKey.toEnd, NavKey.home, NavKey.down]
    (by omega)
  exact ⟨h.1, h.2.2.1⟩

/-- C9 counterexample: calling `load` while the backing file is absent
raises (`open` throws `FileNotFoundError`, which is not caught) and does
not create the file, contrary to the claim that `load` never raises and
creates the missing file itself. -/
theorem claim_C9_cex :
    (load FileState.absent).result = Except.error () ∧
    (load FileState.absent).fileAfter = FileState.absent := ⟨rfl, rfl⟩

/-- C9 amended: the missing backing file is created holding an empty
collection by the Store constructor (`_ensure_file_exists`), before any
`load`; a `load` on an existing file never raises — unparseable content
yields a non-fatal warning and the empty collection with the corrupt
file left untouched until the next save overwrites it. -/
theorem claim_C9 (fs : FileState) (cmds : List Cmd) :
    load (ensure_file_exists FileState.absent) =
      ⟨Except.ok [], false, FileState.valid []⟩ ∧
    (fs ≠ FileState.absent → ∃ out, (load fs).result = Except.ok out) ∧
    (load FileState.corrupt).warned = true ∧
    (load FileState.corrupt).result = Except.ok [] ∧
    (load FileState.corrupt).fileAfter = FileState.corrupt ∧
    save FileState.corrupt cmds = FileState.valid cmds ∧
    (load fs).fileAfter = fs := by
  refine ⟨rfl, ?_, rfl, rfl, rfl, rfl, ?_⟩
  · intro hne
    cases fs with
    | absent => exact absurd rfl hne
    | corrupt => exact ⟨[], rfl⟩
    | valid cmds' => exact ⟨cmds', rfl⟩
  · cases fs <;> rfl

/-- C9 witness: the amended theorem applied to the corrupt file state. -/
theorem claim_C9_witness : ∃ out, (load FileState.corrupt).result = Except.ok out :=
  (claim_C9 FileState.corrupt []).2.1 (by decide)

end See
